import Mathlib

/-!
Verification development for the `semistr` crate: a compact immutable string
type (`SemiStr`) stored in a 16-byte footprint with two representations,
inline (length at most 12, bytes stored in the footprint, zero padded) and
heap (length above 12, a 4-byte cached first segment plus a reference-counted
heap buffer).

Modelling conventions of the shallow embedding:
* a byte is a `Nat`; a Rust `&str` or `&[u8]` is a `List Nat` of its bytes;
* the heap buffer is immutable, so in the main model the buffer handle is
  identified with the buffer's contents (a `List Nat`);
* allocation and reference counts, which the `Clone` claim is about, are
  modelled separately in namespace `RC` by explicit store passing, where a
  buffer handle is an index into a store of buffers with shared counts;
* a Rust panic or assertion failure is modelled as `Option.none`;
* fallible constructors return `Except Error SemiStr`.
-/

/-- Byte capacity of the inline representation (`INLINE_CAP` in the source). -/
def INLINE_CAP : Nat := 12

/-- Largest value of a 32-bit unsigned length (`u32::MAX` in the source). -/
def U32_MAX : Nat := 2 ^ 32 - 1

/-- Error type of the crate (`error.rs`): the only two failure kinds. -/
inductive Error where
  | StringTooLong (n : Nat)
  | InvalidUtf8String
deriving DecidableEq

/-- SemiStr value. The source stores a raw 16-byte footprint and reinterprets
it as `Inline \x7b len, data: [u8; 12] \x7d` or
`Heap \x7b len, pfx: [u8; 4], ptr: Arc<Box<[u8]>> \x7d` depending on the
stored length. Every constructor writes the `inl` shape exactly when the
length is at most 12, so the shape tag of this inductive agrees with the
length discriminant on every constructible value; the buffer behind `ptr`
is immutable and is modelled by its contents `buf`. -/
inductive SemiStr where
  | inl (len : Nat) (data : List Nat)
  | heap (len : Nat) (pfx : List Nat) (buf : List Nat)
deriving DecidableEq

instance : DecidableEq (Except Error SemiStr) := fun x y =>
  match x, y with
  | .ok a, .ok b => if h : a = b then .isTrue (by simp [h]) else .isFalse (by simp [h])
  | .ok _, .error _ => .isFalse (by simp)
  | .error _, .ok _ => .isFalse (by simp)
  | .error a, .error b => if h : a = b then .isTrue (by simp [h]) else .isFalse (by simp [h])

namespace SemiStr

/-- Length accessor: the source reads the `len` field at bytes 0..4, which
both shapes store at the same offset (`SemiStr::len`). -/
def len : SemiStr → Nat
  | .inl n _ => n
  | .heap n _ _ => n

/-- Raw payload bytes 4..16 of the footprint. For the inline shape these are
the 12 data bytes. For the heap shape bytes 8..16 hold the buffer pointer,
which has no observable value in the embedding; the code reads the payload of
a heap value only on branches that are unreachable for well-formed values
(the raw 12-byte comparison runs only when both lengths are at most 12), so
the pointer bytes are rendered as zeros here. -/
def payload : SemiStr → List Nat
  | .inl _ d => d
  | .heap _ p _ => p ++ List.replicate 8 0

/-- Bytes 4..8 of the footprint: the first 4 data bytes of an inline value,
or the cached 4-byte first segment of a heap value (`self.0[4..8]`). -/
def pfx4 : SemiStr → List Nat
  | .inl _ d => d.take 4
  | .heap _ p _ => p

/-- Contents of the referenced heap buffer (`heap.ptr` dereferenced). The
source reaches this only when the length is above 12, hence only on the heap
shape; the inline case is unreachable and rendered as `[]`. -/
def bufRead : SemiStr → List Nat
  | .inl _ _ => []
  | .heap _ _ b => b

/-- Text view (`Deref::deref`): for length at most 12 the first `len` payload
bytes, otherwise the full referenced buffer. -/
def deref (s : SemiStr) : List Nat :=
  if s.len ≤ INLINE_CAP then s.payload.take s.len else s.bufRead

/-- Shape test: true on the inline representation. -/
def isInl : SemiStr → Bool
  | .inl _ _ => true
  | .heap _ _ _ => false

/-- Well-formedness of a value, as produced by the constructors: the shape is
inline exactly when the stored length is at most 12; an inline value carries
exactly 12 payload bytes with offsets `len..12` zero; a heap value caches the
first 4 bytes of its buffer and its buffer length equals the stored length. -/
def wf : SemiStr → Bool
  | .inl n d => n ≤ INLINE_CAP && d.length = 12 && d.drop n == List.replicate (12 - n) 0
  | .heap n p b => INLINE_CAP < n && p == b.take 4 && b.length == n

end SemiStr

/-- Construction of the inline shape (`inline_str` in the source): a 12-byte
zeroed array receives the input bytes at its front. The `take 12` renders the
fixed size of the array; under the precondition `value.length ≤ 12` the data
is `value` followed by zeros. -/
def inline_str (value : List Nat) : SemiStr :=
  .inl value.length ((value ++ List.replicate 12 0).take 12)

/-- Construction of the heap shape from a borrowed slice (`heap_str`): the
first 4 bytes are cached and the bytes are copied into a fresh buffer. The
stored length is written through a `u32` cast (`value.len() as u32`), which
truncates modulo `2 ^ 32`; the safety contract of the source asks callers
for a length between 13 and `u32::MAX`, under which the cast is lossless. -/
def heap_str (value : List Nat) : SemiStr :=
  .heap (value.length % 2 ^ 32) (value.take 4) value

/-- Construction of the heap shape from an owned buffer (`heap_string`): the
existing allocation is shrunk to fit and reused instead of copied, which in
this contents-based model yields the same value as `heap_str`; the stored
length goes through the same truncating `u32` cast. The source's
`debug_assert` on the length is a debug-build check, compiled out of release
builds, and is not part of the function's behaviour. -/
def heap_string (value : List Nat) : SemiStr :=
  .heap (value.length % 2 ^ 32) (value.take 4) value

/-- Constructor from a text slice (`TryFrom<&str>`): inline when the length
is at most 12, heap when it is at most `u32::MAX`, error otherwise. -/
def try_from_str (value : List Nat) : Except Error SemiStr :=
  if value.length ≤ INLINE_CAP then .ok (inline_str value)
  else if value.length ≤ U32_MAX then .ok (heap_str value)
  else .error (.StringTooLong value.length)

/-- Continuation-byte test of UTF-8: a byte of the form `10xxxxxx`. -/
def utf8Cont (b : Nat) : Bool := 0x80 ≤ b && b < 0xC0

/-- UTF-8 validity of a byte sequence, as decided by `std::str::from_utf8`
(an external collaborator of the crate): standard UTF-8, rejecting overlong
forms, surrogates and code points above `0x10FFFF`. -/
def utf8Valid : List Nat → Bool
  | [] => true
  | b :: rest =>
    if b < 0x80 then utf8Valid rest
    else if b < 0xC2 then false
    else if b < 0xE0 then
      match rest with
      | b1 :: r => utf8Cont b1 && utf8Valid r
      | [] => false
    else if b = 0xE0 then
      match rest with
      | b1 :: b2 :: r => (0xA0 ≤ b1 && b1 < 0xC0) && utf8Cont b2 && utf8Valid r
      | _ => false
    else if b = 0xED then
      match rest with
      | b1 :: b2 :: r => (0x80 ≤ b1 && b1 < 0xA0) && utf8Cont b2 && utf8Valid r
      | _ => false
    else if b < 0xF0 then
      match rest with
      | b1 :: b2 :: r => utf8Cont b1 && utf8Cont b2 && utf8Valid r
      | _ => false
    else if b = 0xF0 then
      match rest with
      | b1 :: b2 :: b3 :: r => (0x90 ≤ b1 && b1 < 0xC0) && utf8Cont b2 && utf8Cont b3 && utf8Valid r
      | _ => false
    else if b < 0xF4 then
      match rest with
      | b1 :: b2 :: b3 :: r => utf8Cont b1 && utf8Cont b2 && utf8Cont b3 && utf8Valid r
      | _ => false
    else if b = 0xF4 then
      match rest with
      | b1 :: b2 :: b3 :: r => (0x80 ≤ b1 && b1 < 0x90) && utf8Cont b2 && utf8Cont b3 && utf8Valid r
      | _ => false
    else false

/-- Constructor from a byte slice (`TryFrom<&[u8]>`): validates the bytes as
UTF-8, failing with `InvalidUtf8String`, then defers to the text-slice
constructor. -/
def try_from_bytes (value : List Nat) : Except Error SemiStr :=
  if utf8Valid value then try_from_str value else .error .InvalidUtf8String

/-- Constructor from an owned string buffer (`TryFrom<String>`): the bytes of
a `String` are already valid UTF-8, so no re-validation occurs; the heap path
reuses the owned allocation through `heap_string`. -/
def try_from_string (value : List Nat) : Except Error SemiStr :=
  if value.length ≤ INLINE_CAP then .ok (inline_str value)
  else if value.length ≤ U32_MAX then .ok (heap_string value)
  else .error (.StringTooLong value.length)

/-- Inline-only constructor (`SemiStr::inline`): asserts the input is at most
12 bytes (assertion failure modelled as `none`) and builds the inline shape. -/
def SemiStr.inline (s : List Nat) : Option SemiStr :=
  if s.length ≤ INLINE_CAP then some (inline_str s) else none

/-- Default value (`Default::default`): the empty inline value. -/
def SemiStr.default : SemiStr := .inl 0 (List.replicate 12 0)

/-- Equality between two values (`PartialEq for SemiStr`): length check, then
raw comparison of the 12 payload bytes when the common length is at most 12,
otherwise a 4-byte cached-segment filter followed by full text comparison. -/
def SemiStr.beq (a b : SemiStr) : Bool :=
  if a.len ≠ b.len then false
  else if b.len ≤ INLINE_CAP then a.payload == b.payload
  else if a.pfx4 ≠ b.pfx4 then false
  else a.deref == b.deref

/-- Equality against a foreign string slice (`PartialEq<str>` and the
identical `PartialEq<&str>`): length check, then direct text comparison when
the foreign length is at most 12, otherwise the value's cached 4 bytes are
compared with the slice's first 4 bytes before the full text comparison. -/
def SemiStr.eqStr (a : SemiStr) (other : List Nat) : Bool :=
  if a.len ≠ other.length then false
  else if other.length ≤ INLINE_CAP then a.deref == other
  else if a.pfx4 ≠ other.take 4 then false
  else a.deref == other

/-- Equality with the string slice on the left (`PartialEq<SemiStr> for str`
and `for &str`): the source delegates to the mirrored comparison. -/
def strEqSemi (s : List Nat) (a : SemiStr) : Bool := a.eqStr s

/-- Lexicographic byte comparison of two byte sequences, the comparison
performed by `str::cmp` on the underlying bytes. -/
def listCmp : List Nat → List Nat → Ordering
  | [], [] => .eq
  | [], _ :: _ => .lt
  | _ :: _, [] => .gt
  | a :: as, b :: bs =>
    if a < b then .lt else if b < a then .gt else listCmp as bs

/-- Total comparison (`Ord::cmp`): compares the two text views with the
string comparison, which is byte-lexicographic on the encoded form. -/
def SemiStr.cmp (a b : SemiStr) : Ordering := listCmp a.deref b.deref

/-- Partial comparison (`PartialOrd::partial_cmp`): always `Some` of `cmp`. -/
def SemiStr.partialCmp (a b : SemiStr) : Option Ordering := some (a.cmp b)

/-- Encoded length of a Unicode code point (`char::len_utf8`). -/
def lenUtf8 (c : Nat) : Nat :=
  if c < 0x80 then 1 else if c < 0x800 then 2 else if c < 0x10000 then 3 else 4

/-- UTF-8 encoding of a Unicode code point (`char::encode_utf8`). -/
def encodeChar (c : Nat) : List Nat :=
  if c < 0x80 then [c]
  else if c < 0x800 then
    [0xC0 + c / 64, 0x80 + c % 64]
  else if c < 0x10000 then
    [0xE0 + c / 4096, 0x80 + c / 64 % 64, 0x80 + c % 64]
  else
    [0xF0 + c / 262144, 0x80 + c / 4096 % 64, 0x80 + c / 64 % 64, 0x80 + c % 64]

/-- UTF-8 encoding of a sequence of code points, the byte content a `String`
accumulates when the code points are pushed in order. -/
def encodeStr (cs : List Nat) : List Nat := (cs.map encodeChar).flatten

/-- Accumulation loop of `from_char_iter`: starting from `len` bytes already
written into the 12-byte scratch `data`, each code point either fits (is
encoded into the scratch at offset `len`) or triggers the switch to the heap:
the written bytes, the current code point and the remaining sequence are
collected into an owned buffer and `heap_string` is applied. The source's
`assert` that `len` stays at most `u32::MAX` always holds (`len ≤ 12`) and
the mid-stream size hint only sizes the allocation, so neither is modelled. -/
def fromCharIterGo : Nat → List Nat → List Nat → SemiStr
  | len, data, [] => .inl len data
  | len, data, ch :: rest =>
    let size := lenUtf8 ch
    if INLINE_CAP < size + len then
      heap_string (data.take len ++ encodeChar ch ++ encodeStr rest)
    else
      fromCharIterGo (len + size) (data.take len ++ encodeChar ch ++ data.drop (len + size)) rest

/-- Character-sequence builder (`SemiStr::from_char_iter`, the body of
`FromIterator<char>`): `minSize` is the lower bound of the iterator's size
hint and `chars` the code points the iterator yields. The initial assertion
that `minSize` is at most `u32::MAX` is modelled as `none` on failure; a
lower bound above 12 shortcuts to collecting everything into an owned heap
buffer; otherwise the inline scratch loop runs. -/
def from_char_iter (minSize : Nat) (chars : List Nat) : Option SemiStr :=
  if U32_MAX < minSize then none
  else if INLINE_CAP < minSize then some (heap_string (encodeStr chars))
  else some (fromCharIterGo 0 (List.replicate 12 0) chars)

namespace RC

/-- Heap store for the allocation-aware model: `bufs` holds the contents of
every allocated buffer (a buffer handle is its index) and `rc` the shared
count of each buffer, as maintained by `Arc`. -/
structure Store where
  bufs : List (List Nat)
  rc : List Nat
deriving DecidableEq

/-- SemiStr footprint in the allocation-aware model: same as the main model
except that a heap value holds a buffer handle (`ptr`, the `Arc` pointer)
instead of the buffer's contents. -/
inductive Str where
  | inl (len : Nat) (data : List Nat)
  | heap (len : Nat) (pfx : List Nat) (ptr : Nat)
deriving DecidableEq

/-- Length field of the footprint (`SemiStr::len`). -/
def Str.len : Str → Nat
  | .inl n _ => n
  | .heap n _ _ => n

/-- Buffer handle of a heap value; the inline case is unreachable where the
source reads it. -/
def Str.ptrOf : Str → Nat
  | .inl _ _ => 0
  | .heap _ _ p => p

/-- Text view (`Deref::deref`) in the allocation-aware model: inline data for
length at most 12, otherwise the buffer the handle refers to in the store. -/
def Str.deref (v : Str) (st : Store) : List Nat :=
  match v with
  | .inl n d => d.take n
  | .heap _ _ p => st.bufs.getD p []

/-- Allocating heap constructor (`heap_str`): copies the bytes into a freshly
allocated buffer, appended to the store, and wraps it in a new shared handle
whose count starts at 1 (`Arc::new`); the stored length goes through the
source's truncating `u32` cast. -/
def heap_str (value : List Nat) (st : Store) : Str × Store :=
  (.heap (value.length % 2 ^ 32) (value.take 4) st.bufs.length,
   ⟨st.bufs ++ [value], st.rc ++ [1]⟩)

/-- Clone (`Clone for SemiStr`): a bitwise copy of the footprint when the
length is at most 12; otherwise the source calls `heap_str` on the text view,
allocating a fresh buffer rather than touching the existing handle's count. -/
def Str.clone (v : Str) (st : Store) : Str × Store :=
  if v.len ≤ INLINE_CAP then (v, st) else heap_str (v.deref st) st

/-- Well-formedness of a heap value against a store: the length is above 12
and fits the 32-bit length field, the handle refers to an allocated buffer
whose length is the stored length, and the cached 4 bytes are the buffer's
first 4 bytes. -/
def Str.wfHeap (v : Str) (st : Store) : Bool :=
  match v with
  | .inl _ _ => false
  | .heap n p b =>
    INLINE_CAP < n && n ≤ U32_MAX && b < st.bufs.length
      && p == (st.bufs.getD b []).take 4 && (st.bufs.getD b []).length == n

end RC

@[simp] theorem INLINE_CAP_eq : INLINE_CAP = 12 := rfl

@[simp] theorem U32_MAX_eq : U32_MAX = 4294967295 := rfl

theorem inline_str_eq {v : List Nat} (h : v.length ≤ 12) :
    inline_str v = .inl v.length (v ++ List.replicate (12 - v.length) 0) := by
  have hmin : (12 - v.length) ⊓ 12 = 12 - v.length := by omega
  simp only [inline_str, List.take_append_eq_append_take, List.take_of_length_le h,
    List.take_replicate, hmin]

theorem deref_inline_str {v : List Nat} (h : v.length ≤ 12) :
    (inline_str v).deref = v := by
  rw [inline_str_eq h]
  simp only [SemiStr.deref, SemiStr.len, SemiStr.payload, INLINE_CAP_eq]
  rw [if_pos h, List.take_left]

theorem heap_str_len_eq {v : List Nat} (h2 : v.length ≤ U32_MAX) :
    v.length % 2 ^ 32 = v.length := by
  simp only [U32_MAX_eq] at h2
  omega

theorem deref_heap_str {v : List Nat} (h : 12 < v.length) (h2 : v.length ≤ U32_MAX) :
    (heap_str v).deref = v := by
  simp only [heap_str, SemiStr.deref, SemiStr.len, SemiStr.bufRead, INLINE_CAP_eq,
    heap_str_len_eq h2]
  rw [if_neg (by omega)]

theorem heap_string_eq_heap_str : heap_string = heap_str := rfl

theorem wf_inline_str {v : List Nat} (h : v.length ≤ 12) :
    (inline_str v).wf = true := by
  rw [inline_str_eq h]
  simp only [SemiStr.wf, INLINE_CAP_eq, Bool.and_eq_true, decide_eq_true_eq, beq_iff_eq]
  refine ⟨⟨h, by simp; omega⟩, ?_⟩
  rw [List.drop_append_eq_append_drop, List.drop_of_length_le (le_refl _), Nat.sub_self,
    List.drop_zero, List.nil_append]

theorem wf_heap_str {v : List Nat} (h : 12 < v.length) (h2 : v.length ≤ U32_MAX) :
    (heap_str v).wf = true := by
  simp only [U32_MAX_eq] at h2
  simp [heap_str, SemiStr.wf]
  omega

theorem wf_deref_length {s : SemiStr} (h : s.wf = true) : s.deref.length = s.len := by
  cases s with
  | inl n d =>
    simp only [SemiStr.wf, INLINE_CAP_eq, Bool.and_eq_true, decide_eq_true_eq,
      beq_iff_eq] at h
    simp only [SemiStr.deref, SemiStr.len, SemiStr.payload, INLINE_CAP_eq]
    rw [if_pos h.1.1]
    simp only [List.length_take]
    omega
  | heap n p b =>
    simp only [SemiStr.wf, INLINE_CAP_eq, Bool.and_eq_true, decide_eq_true_eq,
      beq_iff_eq] at h
    simp only [SemiStr.deref, SemiStr.len, SemiStr.bufRead, INLINE_CAP_eq]
    rw [if_neg (by omega)]
    exact h.2

theorem wf_inl_data {n : Nat} {d : List Nat} (h : (SemiStr.inl n d).wf = true) :
    d = d.take n ++ List.replicate (12 - n) 0 := by
  simp only [SemiStr.wf, INLINE_CAP_eq, Bool.and_eq_true, decide_eq_true_eq,
    beq_iff_eq] at h
  conv_lhs => rw [← List.take_append_drop n d]
  rw [h.2]

theorem beq_iff_deref {x y : SemiStr} (hx : x.wf = true) (hy : y.wf = true) :
    x.beq y = true ↔ x.deref = y.deref := by
  cases x with
  | inl n d =>
    have hd := wf_inl_data hx
    simp only [SemiStr.wf, INLINE_CAP_eq, Bool.and_eq_true, decide_eq_true_eq,
      beq_iff_eq] at hx
    obtain ⟨⟨hn12, hdlen⟩, hdrop⟩ := hx
    cases y with
    | inl m e =>
      have he := wf_inl_data hy
      simp only [SemiStr.wf, INLINE_CAP_eq, Bool.and_eq_true, decide_eq_true_eq,
        beq_iff_eq] at hy
      obtain ⟨⟨hm12, helen⟩, hedrop⟩ := hy
      simp only [SemiStr.beq, SemiStr.deref, SemiStr.len, SemiStr.payload, SemiStr.pfx4,
        INLINE_CAP_eq, if_pos hn12, if_pos hm12]
      by_cases hnm : n = m
      · rw [if_neg (by omega : ¬ n ≠ m)]
        simp only [beq_iff_eq]
        constructor
        · intro hde; rw [hde, hnm]
        · intro htake
          rw [hd, he, htake, hnm]
      · rw [if_pos (by omega : n ≠ m)]
        simp only [Bool.false_eq_true, false_iff]
        intro hcontra
        have := congrArg List.length hcontra
        simp only [List.length_take] at this
        omega
    | heap m q c =>
      simp only [SemiStr.wf, INLINE_CAP_eq, Bool.and_eq_true, decide_eq_true_eq,
        beq_iff_eq] at hy
      obtain ⟨⟨hm12, hq⟩, hclen⟩ := hy
      simp only [SemiStr.beq, SemiStr.deref, SemiStr.len, SemiStr.payload, SemiStr.pfx4,
        SemiStr.bufRead, INLINE_CAP_eq, if_pos hn12, if_neg (by omega : ¬ m ≤ 12)]
      rw [if_pos (by omega : n ≠ m)]
      simp only [Bool.false_eq_true, false_iff]
      intro hcontra
      have := congrArg List.length hcontra
      simp only [List.length_take] at this
      omega
  | heap n p b =>
    simp only [SemiStr.wf, INLINE_CAP_eq, Bool.and_eq_true, decide_eq_true_eq,
      beq_iff_eq] at hx
    obtain ⟨⟨hn12, hp⟩, hblen⟩ := hx
    cases y with
    | inl m e =>
      simp only [SemiStr.wf, INLINE_CAP_eq, Bool.and_eq_true, decide_eq_true_eq,
        beq_iff_eq] at hy
      obtain ⟨⟨hm12, helen⟩, hedrop⟩ := hy
      simp only [SemiStr.beq, SemiStr.deref, SemiStr.len, SemiStr.payload, SemiStr.pfx4,
        SemiStr.bufRead, INLINE_CAP_eq, if_neg (by omega : ¬ n ≤ 12), if_pos hm12]
      rw [if_pos (by omega : n ≠ m)]
      simp only [Bool.false_eq_true, false_iff]
      intro hcontra
      have := congrArg List.length hcontra
      simp only [List.length_take] at this
      omega
    | heap m q c =>
      simp only [SemiStr.wf, INLINE_CAP_eq, Bool.and_eq_true, decide_eq_true_eq,
        beq_iff_eq] at hy
      obtain ⟨⟨hm12, hq⟩, hclen⟩ := hy
      simp only [SemiStr.beq, SemiStr.deref, SemiStr.len, SemiStr.payload, SemiStr.pfx4,
        SemiStr.bufRead, INLINE_CAP_eq, if_neg (by omega : ¬ n ≤ 12),
        if_neg (by omega : ¬ m ≤ 12)]
      by_cases hnm : n = m
      · rw [if_neg (by omega : ¬ n ≠ m)]
        by_cases hpq : p = q
        · rw [if_neg (by simp [hpq] : ¬ p ≠ q)]
          simp only [beq_iff_eq]
        · rw [if_pos (by simp [hpq] : p ≠ q)]
          simp only [Bool.false_eq_true, false_iff]
          intro hcontra
          rw [hp, hq, hcontra] at hpq
          exact hpq rfl
      · rw [if_pos (by omega : n ≠ m)]
        simp only [Bool.false_eq_true, false_iff]
        intro hcontra
        have := congrArg List.length hcontra
        omega

theorem eqStr_iff_deref {x : SemiStr} {s : List Nat} (hx : x.wf = true) :
    x.eqStr s = true ↔ x.deref = s := by
  have hlen := wf_deref_length hx
  unfold SemiStr.eqStr
  by_cases hns : x.len = s.length
  · rw [if_neg (by omega : ¬ x.len ≠ s.length)]
    by_cases hsmall : s.length ≤ INLINE_CAP
    · rw [if_pos hsmall]
      simp only [beq_iff_eq]
    · rw [if_neg hsmall]
      cases x with
      | inl n d =>
        simp only [SemiStr.wf, INLINE_CAP_eq, Bool.and_eq_true, decide_eq_true_eq,
          beq_iff_eq] at hx
        simp only [SemiStr.len] at hns
        simp only [INLINE_CAP_eq] at hsmall
        omega
      | heap n p b =>
        simp only [SemiStr.wf, INLINE_CAP_eq, Bool.and_eq_true, decide_eq_true_eq,
          beq_iff_eq] at hx
        obtain ⟨⟨hn12, hp⟩, hblen⟩ := hx
        simp only [SemiStr.pfx4, SemiStr.deref, SemiStr.len, SemiStr.bufRead, INLINE_CAP_eq,
          if_neg (by omega : ¬ n ≤ 12)]
        by_cases hpq : p = s.take 4
        · rw [if_neg (by simp [hpq] : ¬ p ≠ s.take 4)]
          simp only [beq_iff_eq]
        · rw [if_pos (by simp [hpq] : p ≠ s.take 4)]
          simp only [Bool.false_eq_true, false_iff]
          intro hcontra
          rw [hp, hcontra] at hpq
          exact hpq rfl
  · rw [if_pos (by omega : x.len ≠ s.length)]
    simp only [Bool.false_eq_true, false_iff]
    intro hcontra
    have := congrArg List.length hcontra
    omega

theorem listCmp_self (x : List Nat) : listCmp x x = .eq := by
  induction x with
  | nil => rfl
  | cons a as ih =>
    simp only [listCmp, lt_irrefl, if_false, ih]

theorem listCmp_eq_iff {x y : List Nat} : listCmp x y = .eq ↔ x = y := by
  induction x generalizing y with
  | nil =>
    cases y with
    | nil => simp [listCmp]
    | cons b bs => simp [listCmp]
  | cons a as ih =>
    cases y with
    | nil => simp [listCmp]
    | cons b bs =>
      simp only [listCmp, List.cons.injEq]
      by_cases hab : a < b
      · rw [if_pos hab]
        constructor
        · intro h; exact absurd h (by decide)
        · rintro ⟨h1, h2⟩; omega
      · rw [if_neg hab]
        by_cases hba : b < a
        · rw [if_pos hba]
          constructor
          · intro h; exact absurd h (by decide)
          · rintro ⟨h1, h2⟩; omega
        · rw [if_neg hba]
          have hab2 : a = b := by omega
          subst hab2
          simp [ih]

theorem listCmp_swap (x y : List Nat) : listCmp y x = (listCmp x y).swap := by
  induction x generalizing y with
  | nil =>
    cases y with
    | nil => rfl
    | cons b bs => rfl
  | cons a as ih =>
    cases y with
    | nil => rfl
    | cons b bs =>
      simp only [listCmp]
      by_cases hab : a < b
      · rw [if_neg (by omega : ¬ b < a), if_pos hab, if_pos hab]
        rfl
      · by_cases hba : b < a
        · rw [if_pos hba, if_neg hab, if_pos hba]
          rfl
        · rw [if_neg hba, if_neg hab, if_neg hab, if_neg hba, ih]

theorem listCmp_lt_iff {x y : List Nat} :
    listCmp x y = .lt ↔ List.Lex (· < ·) x y := by
  induction x generalizing y with
  | nil =>
    cases y with
    | nil =>
      simp only [listCmp]
      constructor
      · intro h; exact absurd h (by decide)
      · intro h; cases h
    | cons b bs =>
      simp only [listCmp]
      exact iff_of_true trivial List.Lex.nil
  | cons a as ih =>
    cases y with
    | nil =>
      simp only [listCmp]
      constructor
      · intro h; exact absurd h (by decide)
      · intro h; cases h
    | cons b bs =>
      simp only [listCmp]
      by_cases hab : a < b
      · rw [if_pos hab]
        exact iff_of_true rfl (List.Lex.rel hab)
      · rw [if_neg hab]
        by_cases hba : b < a
        · rw [if_pos hba]
          constructor
          · intro h; exact absurd h (by decide)
          · intro h
            cases h with
            | cons h2 => omega
            | rel h2 => omega
        · rw [if_neg hba]
          have hab2 : a = b := by omega
          subst hab2
          rw [ih]
          constructor
          · intro h; exact List.Lex.cons h
          · intro h
            cases h with
            | cons h2 => exact h2
            | rel h2 => omega

theorem encodeChar_length (c : Nat) : (encodeChar c).length = lenUtf8 c := by
  unfold encodeChar lenUtf8
  split_ifs <;> rfl

theorem lenUtf8_pos (c : Nat) : 1 ≤ lenUtf8 c := by
  unfold lenUtf8
  split_ifs <;> omega

theorem encodeStr_nil : encodeStr [] = [] := rfl

theorem encodeStr_cons (c : Nat) (cs : List Nat) :
    encodeStr (c :: cs) = encodeChar c ++ encodeStr cs := by
  simp [encodeStr]

theorem length_le_encodeStr (cs : List Nat) : cs.length ≤ (encodeStr cs).length := by
  induction cs with
  | nil => simp [encodeStr]
  | cons c cs ih =>
    rw [encodeStr_cons]
    simp only [List.length_cons, List.length_append]
    have := lenUtf8_pos c
    have := encodeChar_length c
    omega

theorem fromCharIterGo_spec (chars : List Nat) : ∀ acc : List Nat, acc.length ≤ 12 →
    fromCharIterGo acc.length (acc ++ List.replicate (12 - acc.length) 0) chars =
      if (acc ++ encodeStr chars).length ≤ 12 then inline_str (acc ++ encodeStr chars)
      else heap_string (acc ++ encodeStr chars) := by
  induction chars with
  | nil =>
    intro acc h
    rw [if_pos (by simpa [encodeStr_nil] using h)]
    simp only [fromCharIterGo, encodeStr_nil, List.append_nil]
    rw [inline_str_eq h]
  | cons ch rest ih =>
    intro acc h
    have hsz := encodeChar_length ch
    have htake : (acc ++ List.replicate (12 - acc.length) 0).take acc.length = acc :=
      List.take_left acc _
    simp only [fromCharIterGo, INLINE_CAP_eq]
    by_cases hbig : 12 < lenUtf8 ch + acc.length
    · rw [if_pos hbig, htake]
      rw [if_neg (by
        simp only [List.length_append, encodeStr_cons]
        omega)]
      rw [encodeStr_cons, ← List.append_assoc]
    · rw [if_neg hbig, htake]
      have hdrop : (acc ++ List.replicate (12 - acc.length) 0).drop (acc.length + lenUtf8 ch)
          = List.replicate (12 - (acc.length + lenUtf8 ch)) 0 := by
        rw [List.drop_append_eq_append_drop, List.drop_of_length_le (by omega),
          List.drop_replicate, List.nil_append]
        congr 1
        omega
      rw [hdrop]
      have hlen2 : (acc ++ encodeChar ch).length = acc.length + lenUtf8 ch := by
        simp [hsz]
      have := ih (acc ++ encodeChar ch) (by omega)
      rw [hlen2] at this
      rw [this, encodeStr_cons, ← List.append_assoc]

theorem rc_getD_concat (l : List (List Nat)) (a : List Nat) :
    (l ++ [a]).getD l.length [] = a := by
  rw [List.getD_append_right _ _ _ _ (le_refl _), Nat.sub_self]
  rfl

theorem rc_clone_spec {v : RC.Str} {st : RC.Store} (h : v.wfHeap st = true) :
    (v.clone st).1 = RC.Str.heap v.len ((v.deref st).take 4) st.bufs.length
    ∧ (v.clone st).2.bufs = st.bufs ++ [v.deref st]
    ∧ (v.clone st).2.rc = st.rc ++ [1]
    ∧ (v.clone st).1.deref (v.clone st).2 = v.deref st
    ∧ (v.clone st).1.wfHeap (v.clone st).2 = true := by
  cases v with
  | inl n d => simp [RC.Str.wfHeap] at h
  | heap n p b =>
    simp only [RC.Str.wfHeap, INLINE_CAP_eq, U32_MAX_eq, Bool.and_eq_true,
      decide_eq_true_eq, beq_iff_eq] at h
    obtain ⟨⟨⟨⟨hn12, hmax⟩, hb⟩, hp⟩, hlen⟩ := h
    have hclone : RC.Str.clone (.heap n p b) st = RC.heap_str (st.bufs.getD b []) st := by
      unfold RC.Str.clone
      rw [if_neg (by simp only [RC.Str.len, INLINE_CAP_eq]; omega)]
      rfl
    have hderef : RC.Str.deref (.heap n p b) st = st.bufs.getD b [] := rfl
    have hmod : (st.bufs.getD b []).length % 2 ^ 32 = n := by
      rw [hlen]; omega
    rw [hclone, hderef]
    refine ⟨?_, rfl, rfl, ?_, ?_⟩
    · simp only [RC.heap_str, RC.Str.len, hmod]
    · simp only [RC.heap_str, RC.Str.deref]
      exact rc_getD_concat st.bufs _
    · simp only [RC.heap_str, RC.Str.wfHeap, INLINE_CAP_eq, U32_MAX_eq, Bool.and_eq_true,
        decide_eq_true_eq, beq_iff_eq, hmod]
      rw [rc_getD_concat st.bufs _]
      refine ⟨⟨⟨⟨by omega, by omega⟩, by simp⟩, rfl⟩, hlen⟩

theorem try_from_str_eq {s : List Nat} (h : s.length ≤ U32_MAX) :
    try_from_str s =
      .ok (if s.length ≤ INLINE_CAP then inline_str s else heap_str s) := by
  unfold try_from_str
  by_cases hs : s.length ≤ INLINE_CAP
  · rw [if_pos hs, if_pos hs]
  · rw [if_neg hs, if_pos h, if_neg hs]

theorem from_char_iter_eq {minSize : Nat} {cs : List Nat} (hm : minSize ≤ cs.length)
    (hlen : (encodeStr cs).length ≤ U32_MAX) :
    from_char_iter minSize cs =
      some (if (encodeStr cs).length ≤ INLINE_CAP then inline_str (encodeStr cs)
            else heap_str (encodeStr cs)) := by
  have hcs : cs.length ≤ (encodeStr cs).length := length_le_encodeStr cs
  unfold from_char_iter
  rw [if_neg (by omega : ¬ U32_MAX < minSize)]
  by_cases hshort : INLINE_CAP < minSize
  · rw [if_pos hshort]
    rw [if_neg (by simp only [INLINE_CAP_eq] at hshort ⊢; omega), heap_string_eq_heap_str]
  · rw [if_neg hshort]
    have := fromCharIterGo_spec cs [] (by simp)
    simp only [List.length_nil, Nat.sub_zero, List.nil_append] at this
    rw [this]
    by_cases hfits : (encodeStr cs).length ≤ 12
    · rw [if_pos hfits, if_pos (by simpa using hfits)]
    · rw [if_neg hfits, if_neg (by simpa using hfits), heap_string_eq_heap_str]

theorem listCmp_trans_lt {x y z : List Nat}
    (h1 : listCmp x y = .lt) (h2 : listCmp y z = .lt) : listCmp x z = .lt := by
  induction x generalizing y z with
  | nil =>
    cases z with
    | nil =>
      cases y with
      | nil => exact h1
      | cons b bs => simp [listCmp] at h2
    | cons c cs => rfl
  | cons a as ih =>
    cases y with
    | nil => simp [listCmp] at h1
    | cons b bs =>
      cases z with
      | nil => simp [listCmp] at h2
      | cons c cs =>
        simp only [listCmp] at h1 h2 ⊢
        by_cases hab : a < b
        · have hbc : b ≤ c := by
            by_cases hb : b < c
            · omega
            · rw [if_neg hb] at h2
              by_cases hcb : c < b
              · rw [if_pos hcb] at h2; exact absurd h2 (by decide)
              · omega
          rw [if_pos (by omega : a < c)]
        · rw [if_neg hab] at h1
          by_cases hba : b < a
          · rw [if_pos hba] at h1; exact absurd h1 (by decide)
          · rw [if_neg hba] at h1
            have hab2 : a = b := by omega
            subst hab2
            by_cases hac : a < c
            · rw [if_pos hac]
            · rw [if_neg hac] at h2 ⊢
              by_cases hca : c < a
              · rw [if_pos hca] at h2; exact absurd h2 (by decide)
              · rw [if_neg hca] at h2 ⊢
                exact ih h1 h2

theorem encodeChar_97 : encodeChar 97 = [97] := rfl

theorem encodeStr_replicate_97 (n : Nat) :
    encodeStr (List.replicate n 97) = List.replicate n 97 := by
  induction n with
  | zero => rfl
  | succ k ih =>
    rw [List.replicate_succ, encodeStr_cons, encodeChar_97, ih]
    rfl

/-- Claim C1: for every string `s` (a valid UTF-8 byte sequence) of byte
length at most `2 ^ 32 - 1`, construction from the text slice succeeds, the
text view of the result equals `s` and its length equals the byte length of
`s`; the result is inline on the inline path (length at most 12) and heap on
the heap path (length at least 13). -/
theorem claim_C1 (s : List Nat) (hs : utf8Valid s = true) (h : s.length ≤ U32_MAX) :
    ∃ v, try_from_str s = Except.ok v ∧ v.deref = s ∧ v.len = s.length
      ∧ (s.length ≤ INLINE_CAP → v.isInl = true)
      ∧ (INLINE_CAP < s.length → v.isInl = false) := by
  rw [try_from_str_eq h]
  by_cases hsmall : s.length ≤ INLINE_CAP
  · rw [if_pos hsmall]
    refine ⟨inline_str s, rfl, deref_inline_str (by simpa using hsmall), rfl, ?_, ?_⟩
    · intro _; rfl
    · intro hc; exact absurd hsmall (not_le.mpr hc)
  · rw [if_neg hsmall]
    have h12 : 12 < s.length := by simp only [INLINE_CAP_eq] at hsmall; omega
    refine ⟨heap_str s, rfl, deref_heap_str h12 h, ?_, ?_, ?_⟩
    · simp only [heap_str, SemiStr.len]
      exact heap_str_len_eq h
    · intro hc; exact absurd hc hsmall
    · intro _; rfl

/-- Closed instance of claim C1 at the 5-byte string "hello". -/
theorem claim_C1_witness :
    ∃ v, try_from_str [104, 101, 108, 108, 111] = Except.ok v
      ∧ v.deref = [104, 101, 108, 108, 111]
      ∧ v.len = [104, 101, 108, 108, 111].length
      ∧ ([104, 101, 108, 108, 111].length ≤ INLINE_CAP → v.isInl = true)
      ∧ (INLINE_CAP < [104, 101, 108, 108, 111].length → v.isInl = false) :=
  claim_C1 [104, 101, 108, 108, 111] (by decide) (by decide)

/-- Claim C2: the implemented equality between two well-formed values (length
check, then raw comparison of the 12 payload bytes when the common length is
at most 12, then the 4-byte cached-segment filter and full buffer comparison)
holds exactly when the two text views are equal. -/
theorem claim_C2 (a b : SemiStr) (ha : a.wf = true) (hb : b.wf = true) :
    a.beq b = true ↔ a.deref = b.deref :=
  beq_iff_deref ha hb

/-- Closed instance of claim C2 at two well-formed values, one inline and one
heap. -/
theorem claim_C2_witness :
    ((inline_str [97, 98]).beq (heap_str [97, 98, 99, 100, 101, 102, 103, 104,
        105, 106, 107, 108, 109]) = true
      ↔ (inline_str [97, 98]).deref = (heap_str [97, 98, 99, 100, 101, 102, 103,
        104, 105, 106, 107, 108, 109]).deref) :=
  claim_C2 _ _ (by decide) (by decide)

/-- Claim C4: `cmp` is the byte-lexicographic comparison of the encoded byte
sequences (characterized against the independent lexicographic order on
lists), it is a total order (reflexive, antisymmetric via `swap`, and
transitive), it is consistent with the implemented equality, and
`partial_cmp` always returns `some` of `cmp`. -/
theorem claim_C4 :
    (∀ a b : SemiStr, a.cmp b = listCmp a.deref b.deref)
    ∧ (∀ a b : SemiStr, (a.cmp b = .lt ↔ List.Lex (· < ·) a.deref b.deref))
    ∧ (∀ a : SemiStr, a.cmp a = .eq)
    ∧ (∀ a b : SemiStr, b.cmp a = (a.cmp b).swap)
    ∧ (∀ a b c : SemiStr, a.cmp b = .lt → b.cmp c = .lt → a.cmp c = .lt)
    ∧ (∀ a b : SemiStr, a.wf = true → b.wf = true → (a.cmp b = .eq ↔ a.beq b = true))
    ∧ (∀ a b : SemiStr, a.partialCmp b = some (a.cmp b)) := by
  refine ⟨fun a b => rfl, fun a b => listCmp_lt_iff, fun a => listCmp_self _,
    fun a b => listCmp_swap _ _, fun a b c h1 h2 => listCmp_trans_lt h1 h2,
    fun a b ha hb => ?_, fun a b => rfl⟩
  rw [show a.cmp b = listCmp a.deref b.deref from rfl, listCmp_eq_iff]
  exact (beq_iff_deref ha hb).symm

/-- Closed instance of claim C4: transitivity at three concrete values and
consistency with equality at a concrete well-formed pair. -/
theorem claim_C4_witness :
    (inline_str [97]).cmp (inline_str [99]) = .lt
    ∧ ((inline_str [97]).cmp (inline_str [97]) = .eq
        ↔ (inline_str [97]).beq (inline_str [97]) = true) :=
  ⟨claim_C4.2.2.2.2.1 (inline_str [97]) (inline_str [98]) (inline_str [99])
      (by decide) (by decide),
   claim_C4.2.2.2.2.2.1 (inline_str [97]) (inline_str [97]) (by decide) (by decide)⟩

/-- Claim C5: building a value from the code points of a valid string of
encoded length at most `2 ^ 32 - 1` through the character-sequence builder,
with any size-hint lower bound satisfying the iterator contract, yields
exactly the value the text-slice constructor builds, above and below 12
bytes. -/
theorem claim_C5 (cs : List Nat) (minSize : Nat)
    (hval : ∀ c ∈ cs, c < 0xD800 ∨ (0xE000 ≤ c ∧ c < 0x110000))
    (hm : minSize ≤ cs.length)
    (hlen : (encodeStr cs).length ≤ U32_MAX) :
    ∃ v, from_char_iter minSize cs = some v
      ∧ try_from_str (encodeStr cs) = Except.ok v := by
  rw [from_char_iter_eq hm hlen, try_from_str_eq hlen]
  exact ⟨_, rfl, rfl⟩

/-- Closed instance of claim C5 at a 2-character sequence. -/
theorem claim_C5_witness :
    ∃ v, from_char_iter 2 [104, 105] = some v
      ∧ try_from_str (encodeStr [104, 105]) = Except.ok v :=
  claim_C5 [104, 105] 2 (by decide) (by decide) (by decide)

/-- Claim C6: byte-slice construction fails with `InvalidUtf8String` exactly
when the bytes are not valid UTF-8 (in particular on `[0x00, 0xFF, 0xFF,
0xFF]`); text-slice construction fails with `StringTooLong` of the length
exactly when the length exceeds `2 ^ 32 - 1`; in every other case
construction returns a value; and the two failure kinds are the only
inhabitants of the error type. -/
theorem claim_C6 :
    (∀ v : List Nat,
      (try_from_bytes v = Except.error Error.InvalidUtf8String ↔ utf8Valid v = false))
    ∧ try_from_bytes [0x00, 0xFF, 0xFF, 0xFF] = Except.error Error.InvalidUtf8String
    ∧ (∀ s : List Nat,
        (try_from_str s = Except.error (Error.StringTooLong s.length) ↔ U32_MAX < s.length))
    ∧ (∀ s : List Nat, s.length ≤ U32_MAX → ∃ v, try_from_str s = Except.ok v)
    ∧ (∀ v : List Nat, utf8Valid v = true → v.length ≤ U32_MAX →
        ∃ w, try_from_bytes v = Except.ok w)
    ∧ (∀ e : Error, e = Error.InvalidUtf8String ∨ ∃ n, e = Error.StringTooLong n) := by
  have hstr : ∀ s : List Nat,
      (try_from_str s = Except.error (Error.StringTooLong s.length) ↔ U32_MAX < s.length) := by
    intro s
    unfold try_from_str
    split_ifs with h1 h2
    · simp only [INLINE_CAP_eq] at h1
      simp only [U32_MAX_eq]
      constructor
      · intro hc; exact absurd hc (by simp)
      · intro hc; omega
    · simp only [U32_MAX_eq] at h2 ⊢
      constructor
      · intro hc; exact absurd hc (by simp)
      · intro hc; omega
    · simp only [U32_MAX_eq] at h2 ⊢
      constructor
      · intro _; omega
      · intro _; trivial
  refine ⟨?_, by decide, hstr, ?_, ?_, ?_⟩
  · intro v
    unfold try_from_bytes
    by_cases hu : utf8Valid v
    · rw [if_pos hu, hu]
      constructor
      · intro hc
        unfold try_from_str at hc
        split_ifs at hc <;> simp at hc
      · intro hc; exact absurd hc (by simp)
    · rw [if_neg hu]
      simp only [Bool.not_eq_true] at hu
      exact iff_of_true rfl hu
  · intro s h
    rw [try_from_str_eq h]
    exact ⟨_, rfl⟩
  · intro v hu h
    unfold try_from_bytes
    rw [if_pos hu, try_from_str_eq h]
    exact ⟨_, rfl⟩
  · intro e
    cases e with
    | StringTooLong n => exact Or.inr ⟨n, rfl⟩
    | InvalidUtf8String => exact Or.inl rfl

/-- Closed instance of claim C6 at concrete inputs for the two success
conjuncts, which carry hypotheses. -/
theorem claim_C6_witness :
    (∃ v, try_from_str [104, 105] = Except.ok v)
    ∧ (∃ w, try_from_bytes [104] = Except.ok w) :=
  ⟨claim_C6.2.2.2.1 [104, 105] (by decide),
   claim_C6.2.2.2.2.1 [104] (by decide) (by decide)⟩

theorem from_char_iter_zero_hint (chars : List Nat) :
    from_char_iter 0 chars = some (fromCharIterGo 0 (List.replicate 12 0) chars) := by
  unfold from_char_iter
  rw [if_neg (by simp), if_neg (by simp)]

theorem builder_overflow (n : Nat) (h12 : 12 < n) :
    fromCharIterGo 0 (List.replicate 12 0) (List.replicate n 97)
      = SemiStr.heap (n % 2 ^ 32) (List.replicate 4 97) (List.replicate n 97) := by
  have h0 := fromCharIterGo_spec (List.replicate n 97) [] (by simp)
  simp only [List.length_nil, Nat.sub_zero, List.nil_append] at h0
  rw [encodeStr_replicate_97] at h0
  rw [if_neg (by rw [List.length_replicate]; omega)] at h0
  unfold heap_string at h0
  rw [List.length_replicate, List.take_replicate,
    show 4 ⊓ n = 4 from Nat.min_eq_left (by omega)] at h0
  exact h0

/-- Claim C7, evaluated at the input that breaks it: the character-sequence
builder applied to 2 ^ 32 copies of the code point 97 with size-hint lower
bound 0 returns a heap-shaped value whose 32-bit length field has truncated
2 ^ 32 to 0, so the stored length disagrees with the buffer length and the
value is not well-formed (it would even be read back as an empty inline
value, since every accessor discriminates on the stored length alone). -/
theorem claim_C7 :
    from_char_iter 0 (List.replicate (2 ^ 32) 97)
      = some (SemiStr.heap 0 (List.replicate 4 97) (List.replicate (2 ^ 32) 97))
    ∧ (SemiStr.heap 0 (List.replicate 4 97) (List.replicate (2 ^ 32) 97)).wf = false := by
  constructor
  · have h1 := from_char_iter_zero_hint (List.replicate (2 ^ 32) 97)
    have h2 := builder_overflow (2 ^ 32) (by norm_num)
    rw [Nat.mod_self] at h2
    exact h1.trans (congrArg some h2)
  · by_contra hc
    rw [Bool.not_eq_false] at hc
    simp only [SemiStr.wf, INLINE_CAP_eq, Bool.and_eq_true, decide_eq_true_eq,
      beq_iff_eq] at hc
    exact absurd hc.1.1 (by omega)

/-- Claim C8: for every well-formed value `v` and string slice `s`, the
cross-type equality `v == s` agrees with `s == v` (the source delegates the
mirrored operand order) and both hold exactly when `v`'s text view equals
`s`; in particular the value constructed from any valid text `s` compares
equal to `s` on both sides. -/
theorem claim_C8 :
    (∀ (v : SemiStr) (s : List Nat), v.wf = true →
      ((v.eqStr s = true ↔ strEqSemi s v = true) ∧ (v.eqStr s = true ↔ v.deref = s)))
    ∧ (∀ (s : List Nat) (v : SemiStr), utf8Valid s = true → s.length ≤ U32_MAX →
        try_from_str s = Except.ok v → v.eqStr s = true ∧ strEqSemi s v = true) := by
  constructor
  · intro v s hv
    exact ⟨Iff.rfl, eqStr_iff_deref hv⟩
  · intro s v hu hlen hok
    rw [try_from_str_eq hlen] at hok
    have hveq : (if s.length ≤ INLINE_CAP then inline_str s else heap_str s) = v := by
      injection hok
    by_cases hsmall : s.length ≤ INLINE_CAP
    · rw [if_pos hsmall] at hveq
      subst hveq
      have hwf := wf_inline_str (by simpa using hsmall)
      have hd := deref_inline_str (by simpa using hsmall)
      exact ⟨(eqStr_iff_deref hwf).mpr hd, (eqStr_iff_deref hwf).mpr hd⟩
    · rw [if_neg hsmall] at hveq
      subst hveq
      have h12 : 12 < s.length := by simp only [INLINE_CAP_eq] at hsmall; omega
      have hwf := wf_heap_str h12 hlen
      have hd := deref_heap_str h12 hlen
      exact ⟨(eqStr_iff_deref hwf).mpr hd, (eqStr_iff_deref hwf).mpr hd⟩

/-- Closed instance of claim C8: both parts at a concrete heap value and its
13-byte text. -/
theorem claim_C8_witness :
    (((heap_str [97, 98, 99, 100, 101, 102, 103, 104, 105, 106, 107, 108,
        109]).eqStr [97, 98, 99, 100, 101, 102, 103, 104, 105, 106, 107, 108, 109] = true
      ↔ strEqSemi [97, 98, 99, 100, 101, 102, 103, 104, 105, 106, 107, 108, 109]
          (heap_str [97, 98, 99, 100, 101, 102, 103, 104, 105, 106, 107, 108, 109]) = true)
      ∧ ((heap_str [97, 98, 99, 100, 101, 102, 103, 104, 105, 106, 107, 108,
          109]).eqStr [97, 98, 99, 100, 101, 102, 103, 104, 105, 106, 107, 108, 109] = true
        ↔ (heap_str [97, 98, 99, 100, 101, 102, 103, 104, 105, 106, 107, 108,
            109]).deref = [97, 98, 99, 100, 101, 102, 103, 104, 105, 106, 107, 108, 109]))
    ∧ ((inline_str [104, 105]).eqStr [104, 105] = true
        ∧ strEqSemi [104, 105] (inline_str [104, 105]) = true) :=
  ⟨claim_C8.1 (heap_str [97, 98, 99, 100, 101, 102, 103, 104, 105, 106, 107, 108, 109])
      [97, 98, 99, 100, 101, 102, 103, 104, 105, 106, 107, 108, 109] (by decide),
   claim_C8.2 [104, 105] (inline_str [104, 105]) (by decide) (by decide) (by decide)⟩

/-- Claim C9: the inline-only constructor aborts exactly when the input is
longer than 12 bytes; under the precondition it returns an inline value whose
text view is the input. -/
theorem claim_C9 :
    (∀ s : List Nat, (SemiStr.inline s = none ↔ INLINE_CAP < s.length))
    ∧ (∀ s : List Nat, s.length ≤ INLINE_CAP →
        ∃ v, SemiStr.inline s = some v ∧ v.isInl = true ∧ v.deref = s) := by
  constructor
  · intro s
    unfold SemiStr.inline
    by_cases h : s.length ≤ INLINE_CAP
    · rw [if_pos h]
      simp only [INLINE_CAP_eq] at h ⊢
      constructor
      · intro hc; exact absurd hc (by simp)
      · intro hc; omega
    · rw [if_neg h]
      simp only [INLINE_CAP_eq] at h ⊢
      exact iff_of_true trivial (by omega)
  · intro s h
    refine ⟨inline_str s, ?_, rfl, deref_inline_str (by simpa using h)⟩
    unfold SemiStr.inline
    rw [if_pos h]

/-- Closed instance of claim C9: the abort test at a 13-byte input and the
success case at a 3-byte input. -/
theorem claim_C9_witness :
    (SemiStr.inline [97, 98, 99, 100, 101, 102, 103, 104, 105, 106, 107, 108, 109] = none
      ↔ INLINE_CAP < [97, 98, 99, 100, 101, 102, 103, 104, 105, 106, 107, 108, 109].length)
    ∧ (∃ v, SemiStr.inline [97, 98, 99] = some v ∧ v.isInl = true ∧ v.deref = [97, 98, 99]) :=
  ⟨claim_C9.1 [97, 98, 99, 100, 101, 102, 103, 104, 105, 106, 107, 108, 109],
   claim_C9.2 [97, 98, 99] (by decide)⟩

/-- Claim C10: construction from an owned string buffer never returns
`InvalidUtf8String`; it fails exactly when the length exceeds `2 ^ 32 - 1`,
and then with `StringTooLong` of the length; for every buffer of length at
most `2 ^ 32 - 1` it succeeds. -/
theorem claim_C10 :
    (∀ s : List Nat, try_from_string s ≠ Except.error Error.InvalidUtf8String)
    ∧ (∀ s : List Nat, ((∃ e, try_from_string s = Except.error e) ↔ U32_MAX < s.length))
    ∧ (∀ s : List Nat,
        (try_from_string s = Except.error (Error.StringTooLong s.length) ↔ U32_MAX < s.length))
    ∧ (∀ s : List Nat, s.length ≤ U32_MAX → ∃ v, try_from_string s = Except.ok v) := by
  have hcase : ∀ s : List Nat, s.length ≤ U32_MAX →
      try_from_string s = .ok (if s.length ≤ INLINE_CAP then inline_str s else heap_string s) := by
    intro s h
    unfold try_from_string
    by_cases hs : s.length ≤ INLINE_CAP
    · rw [if_pos hs, if_pos hs]
    · rw [if_neg hs, if_pos h, if_neg hs]
  have herr : ∀ s : List Nat, U32_MAX < s.length →
      try_from_string s = Except.error (Error.StringTooLong s.length) := by
    intro s h
    unfold try_from_string
    rw [if_neg (by simp only [INLINE_CAP_eq, U32_MAX_eq] at h ⊢; omega),
      if_neg (by omega)]
  refine ⟨?_, ?_, ?_, ?_⟩
  · intro s hc
    by_cases h : s.length ≤ U32_MAX
    · rw [hcase s h] at hc
      exact absurd hc (by simp)
    · rw [herr s (by omega)] at hc
      simp at hc
  · intro s
    constructor
    · rintro ⟨e, he⟩
      by_cases h : s.length ≤ U32_MAX
      · rw [hcase s h] at he
        exact absurd he (by simp)
      · omega
    · intro h
      exact ⟨Error.StringTooLong s.length, herr s h⟩
  · intro s
    constructor
    · intro he
      by_cases h : s.length ≤ U32_MAX
      · rw [hcase s h] at he
        exact absurd he (by simp)
      · omega
    · intro h
      exact herr s h
  · intro s h
    exact ⟨_, hcase s h⟩

/-- Closed instance of claim C10 at the empty buffer, discharging the length
hypothesis of the success conjunct. -/
theorem claim_C10_witness : ∃ v, try_from_string [] = Except.ok v :=
  claim_C10.2.2.2 [] (by decide)

/-- Concrete 13-byte text used in the Clone analysis ("hello world!!"). -/
def c3bytes : List Nat := [104, 101, 108, 108, 111, 32, 119, 111, 114, 108, 100, 33, 33]

/-- Heap value built from `c3bytes` in the empty store, exactly as the
text-slice constructor's heap path builds it. -/
def c3pair : RC.Str × RC.Store := RC.heap_str c3bytes ⟨[], []⟩

/-- Claim C3 as stated is false at a concrete heap value: cloning the value
built from the 13-byte text `c3bytes` does not return a value sharing the
original buffer, does not increment the original buffer's shared count, and
does allocate a new buffer (the store grows). -/
theorem claim_C3_counterexample :
    ¬ ((RC.Str.clone c3pair.1 c3pair.2).1.ptrOf = c3pair.1.ptrOf
       ∧ (RC.Str.clone c3pair.1 c3pair.2).2.rc.getD c3pair.1.ptrOf 0
           = c3pair.2.rc.getD c3pair.1.ptrOf 0 + 1
       ∧ (RC.Str.clone c3pair.1 c3pair.2).2.bufs.length = c3pair.2.bufs.length) := by
  decide

/-- Claim C3 (amended): for every heap-represented value `v` (length above
12), `clone` never fails but allocates: it builds its result with `heap_str`
on `v`'s text, so it copies `v`'s bytes into a fresh buffer appended to the
store, wraps it in a new shared handle whose count starts at 1, and returns a
footprint referencing that new buffer; the original buffer's count is
untouched, and the clone is a well-formed heap value with the same length and
text as `v`. -/
theorem claim_C3 (v : RC.Str) (st : RC.Store) (h : v.wfHeap st = true) :
    (v.clone st).1 = RC.Str.heap v.len ((v.deref st).take 4) st.bufs.length
    ∧ (v.clone st).2.bufs = st.bufs ++ [v.deref st]
    ∧ (v.clone st).2.rc = st.rc ++ [1]
    ∧ (v.clone st).1.deref (v.clone st).2 = v.deref st
    ∧ (v.clone st).1.wfHeap (v.clone st).2 = true :=
  rc_clone_spec h

/-- Closed instance of the amended claim C3 at the concrete value `c3pair`. -/
theorem claim_C3_witness :
    (RC.Str.clone c3pair.1 c3pair.2).2.rc = c3pair.2.rc ++ [1]
    ∧ (RC.Str.clone c3pair.1 c3pair.2).1.deref (RC.Str.clone c3pair.1 c3pair.2).2
        = c3pair.1.deref c3pair.2 :=
  ⟨(claim_C3 c3pair.1 c3pair.2 (by decide)).2.2.1,
   (claim_C3 c3pair.1 c3pair.2 (by decide)).2.2.2.1⟩
